import Mathlib

/-!
Verification of the CLINE dendrogram-comparison core.

This file gives a shallow embedding, in Lean 4, of the tree-algorithmic core
of the CLINE application (src/app/utils.ts, src/app/dendrogram.ts,
src/app/clusterMatch.ts) and settles a list of claims about it.

Modelling conventions:
- JavaScript strings are Lean String values; the JS string primitives used by
  the code (substring with clamp-and-swap, indexOf with a start position,
  split, charAt-based counting) are re-implemented below with ECMAScript
  semantics, structurally, so that concrete runs reduce inside the kernel.
- JavaScript numbers are modelled as exact rationals; the code performs
  only +, -, *, / and comparisons on them.
- A value that JavaScript would hold as undefined is modelled as none of an
  Option type; the JS strict-equality test on two possibly-undefined values
  is the BEq test on Option (undefined === undefined is true), and the JS
  coercion of undefined into a string concatenation produces the literal
  text undefined, which is modelled explicitly.
- The recursive parser is embedded with a fuel parameter (fuel := input
  length + 1); the recursion of the source consumes at least one character
  of the input per level, so the fuel never runs out on a real run. The
  fuel-zero fallback returns an empty root.
-/

namespace Cline

/-- A single-quote character, built from its code point. -/
def sq : String := "\x27"

/-! ## ECMAScript string primitives -/

/-- JS String.prototype.substring with both ends: negative ends clamp to 0,
ends above the length clamp to the length, and the two ends are swapped when
given in decreasing order. -/
def jsSubstring (s : String) (a b : Int) : String :=
  let n : Nat := s.data.length
  let aa : Nat := min (max a 0).toNat n
  let bb : Nat := min (max b 0).toNat n
  let lo : Nat := min aa bb
  let hi : Nat := max aa bb
  ⟨(s.data.drop lo).take (hi - lo)⟩

/-- JS String.prototype.substring with one end: runs to the end of the string. -/
def jsSubstringFrom (s : String) (a : Int) : String :=
  jsSubstring s a s.data.length

/-- JS String.prototype.indexOf for a single character with a start position:
the least index that is at least the start position and holds the character,
and -1 when there is none. -/
def jsIndexOf (s : String) (c : Char) (start : Nat) : Int :=
  match ((s.data.drop start).findIdx? (fun a => a == c)) with
  | some k => (start + k : Nat)
  | none => -1

/-- Splitting worker for jsSplit: scans the text left to right, cutting at
each non-overlapping occurrence of the separator. Structural on a fuel that
the wrapper sets to the text length plus one, which suffices for any
nonempty separator; when fuel runs out the remaining text is emitted as the
last piece. -/
def jsSplitAux (sep : List Char) : Nat → List Char → List Char → List (List Char)
  | 0, s, acc => [acc.reverse ++ s]
  | fuel + 1, s, acc =>
    match s with
    | [] => [acc.reverse]
    | c :: rest =>
      if sep.isPrefixOf (c :: rest) then
        acc.reverse :: jsSplitAux sep fuel ((c :: rest).drop sep.length) []
      else
        jsSplitAux sep fuel rest (c :: acc)

/-- JS String.prototype.split on a string separator: pieces between
non-overlapping left-to-right occurrences of the separator; the empty
separator splits into single characters. -/
def jsSplit (s : String) (sep : String) : List String :=
  match sep.data with
  | [] => s.data.map (fun c => ⟨[c]⟩)
  | l => (jsSplitAux l (s.data.length + 1) s.data []).map (fun p => ⟨p⟩)

/-- The literal text JS produces when a possibly-undefined string value is
coerced into a concatenation. -/
def jsStr : Option String → String
  | none => "undefined"
  | some s => s

namespace Utils

/-- Embeds Utils.count of utils.ts: the number of positions at or after
start whose character equals the first character of char. Every call site
passes a one-character char. -/
def count (st : String) (char : String) (start : Nat) : Nat :=
  (st.data.drop start).countP (fun a => a == char.data.headD ' ')

/-- Embeds Utils.rsplit of utils.ts: split st on sep, then rejoin all but
the last maxsplit parts; with maxsplit = 0 the plain split is returned
(JS numeric truthiness). -/
def rsplit (st : String) (sep : String) (maxsplit : Nat) : List String :=
  let parts := jsSplit st sep
  if maxsplit ≠ 0 then
    [String.intercalate sep (parts.take (parts.length - maxsplit))]
      ++ parts.drop (parts.length - maxsplit)
  else parts

/-- Loop body of Utils.splitIntoChildren of utils.ts, structural on the
number of commas counted once at entry. State: the remaining text, the
index of the previously inspected comma, and the pieces emitted so far. -/
def splitLoop : Nat → String → Nat → List String → List String
  | 0, rawTex, _, components =>
    if rawTex ≠ "" then components ++ [rawTex] else components
  | commas + 1, rawTex, previousIndex, components =>
    let ci : Int := jsIndexOf rawTex ',' (previousIndex + 1)
    let currentIndex : Nat := if ci = -1 then rawTex.data.length else ci.toNat
    let leftBrack : Nat := count (jsSubstring rawTex 0 currentIndex) "(" 0
    let rightBrack : Nat := count (jsSubstring rawTex 0 currentIndex) ")" 0
    if leftBrack = rightBrack then
      splitLoop commas (jsSubstringFrom rawTex (currentIndex + 1)) 0
        (components ++ [jsSubstring rawTex 0 currentIndex])
    else
      splitLoop commas rawTex currentIndex components

/-- Embeds Utils.splitIntoChildren of utils.ts: cut the text at each comma
whose preceding prefix holds equally many opening and closing brackets;
any remaining text is emitted as a final piece. -/
def splitIntoChildren (rawTex : String) : List String :=
  splitLoop (count rawTex "," 0) rawTex 0 []

end Utils

/-- The object shape produced by Utils.parsePhylogramTree: a leaf carries
name, id and distToParent; an internal node carries id, distToParent and
children; the outermost root carries only children. A field the code never
assigns is none. -/
inductive PNode where
  | mk (name : Option String) (id : Option String) (distToParent : Option String)
      (children : List PNode)

def PNode.name : PNode → Option String
  | .mk n _ _ _ => n

def PNode.id : PNode → Option String
  | .mk _ i _ _ => i

def PNode.distToParent : PNode → Option String
  | .mk _ _ dp _ => dp

def PNode.children : PNode → List PNode
  | .mk _ _ _ cs => cs

/-- Recursion worker for the parser, structural on fuel. Each level splits
the text into child pieces, splits each piece at its last colon, classifies
it as a leaf (no further colon in the key, the quotes are stripped from the
name) or as an internal node (outer brackets stripped, recursion on the
inside, then the id and distToParent fields are assigned on the returned
object). -/
def parseAux : Nat → String → String → PNode
  | 0, _, _ => .mk none none none []
  | fuel + 1, dendrogram, id =>
    let children := Utils.splitIntoChildren dendrogram
    .mk none none none (children.enum.map (fun p =>
      let i := p.1
      let txt := Utils.rsplit p.2 ":" 1
      let txt0 := txt.headD ""
      let txt1 := (txt.drop 1).headD ""
      let c := Utils.count txt0 ":" 1
      if c = 0 then
        .mk (some (jsSubstring txt0 1 ((txt0.data.length : Int) - 1)))
          (some (id ++ Nat.repr i)) (some txt1) []
      else
        let child := jsSubstring txt0 1 ((txt0.data.length : Int) - 1)
        let o := parseAux fuel child (id ++ Nat.repr i)
        .mk o.name (some (id ++ Nat.repr i)) (some txt1) o.children))

/-- Embeds Utils.parsePhylogramTree of utils.ts. The recursion of the source
strictly shrinks the text, so fuel = length + 1 never runs out. -/
def Utils.parsePhylogramTree (dendrogram : String) (id : String) : PNode :=
  parseAux (dendrogram.data.length + 1) dendrogram id

/-- Node lookup along a path of child indices, for stating facts about
particular positions of a parsed tree. -/
def nodeAt : List Nat → PNode → Option PNode
  | [], n => some n
  | i :: rest, n => (n.children.get? i).bind (fun c => nodeAt rest c)

mutual

/-- The id discipline the specification asserts for the parser output below
a given id stem: the i-th child (0-based) of a node reached with stem pre
carries id pre followed by the decimal digits of i, recursively. -/
def idsOkL (pre : String) : Nat → List PNode → Prop
  | _, [] => True
  | i, c :: cs =>
    c.id = some (pre ++ Nat.repr i) ∧ idsOkFrom (pre ++ Nat.repr i) c
      ∧ idsOkL pre (i + 1) cs

/-- Top-level id discipline for a subtree whose own id stem is pre. -/
def idsOkFrom (pre : String) : PNode → Prop
  | .mk _ _ _ cs => idsOkL pre 0 cs

end

/-! ## Parser facts: helper lemmas -/

theorem isPrefixOf_single (c a : Char) (rest : List Char) :
    [c].isPrefixOf (a :: rest) = (c == a) := by
  simp [List.isPrefixOf]

theorem jsSplitAux_no_sep (c : Char) :
    ∀ (fuel : Nat) (s acc : List Char), c ∉ s →
      jsSplitAux [c] fuel s acc = [acc.reverse ++ s] := by
  intro fuel
  induction fuel with
  | zero => intro s acc _; rfl
  | succ n ih =>
    intro s acc hs
    cases s with
    | nil => simp [jsSplitAux]
    | cons a rest =>
      have hca : (c == a) = false := by
        simp only [List.mem_cons, not_or] at hs
        simp [beq_iff_eq]
        exact fun h => hs.1 h
      simp only [jsSplitAux, isPrefixOf_single, hca, if_neg Bool.false_ne_true]
      rw [ih rest (a :: acc) (fun h => hs (List.mem_cons_of_mem a h))]
      simp

theorem jsSplit_no_sep (s : String) (sep : String) (c : Char)
    (hsep : sep.data = [c]) (hs : c ∉ s.data) : jsSplit s sep = [s] := by
  unfold jsSplit
  rw [hsep]
  show (jsSplitAux [c] (s.data.length + 1) s.data []).map (fun p => (⟨p⟩ : String)) = [s]
  rw [jsSplitAux_no_sep c _ s.data [] hs]
  simp

theorem count_zero_not_mem (st : String) (ch : String) (c : Char)
    (hch : ch.data = [c]) (h : Utils.count st ch 0 = 0) : c ∉ st.data := by
  unfold Utils.count at h
  rw [hch] at h
  simp only [List.drop_zero] at h
  rw [List.countP_eq_zero] at h
  intro hmem
  have := h c hmem
  simp at this

theorem splitIntoChildren_no_comma (rawTex : String) (h1 : rawTex ≠ "")
    (h0 : Utils.count rawTex "," 0 = 0) :
    Utils.splitIntoChildren rawTex = [rawTex] := by
  unfold Utils.splitIntoChildren
  rw [h0]
  unfold Utils.splitLoop
  rw [if_pos h1]
  rfl

theorem rsplit_no_colon (st : String) (h : Utils.count st ":" 0 = 0) :
    Utils.rsplit st ":" 1 = ["", st] := by
  have hnm : ':' ∉ st.data := count_zero_not_mem st ":" ':' rfl h
  unfold Utils.rsplit
  rw [jsSplit_no_sep st ":" ':' rfl hnm]
  rfl

/-- C1, behaviour on inputs with a missing distance: the parser does not
fail; a whole input with no colon (hence no colon-delimited distance
anywhere) and no comma is returned as a root holding one fabricated leaf
whose name is empty and whose distToParent text is the entire input. -/
theorem C1_amended : ∀ (txt marker : String), txt ≠ "" →
    Utils.count txt "," 0 = 0 → Utils.count txt ":" 0 = 0 →
    Utils.parsePhylogramTree txt marker
      = .mk none none none [.mk (some "") (some (marker ++ "0")) (some txt) []] := by
  intro txt marker hne hcomma hcolon
  unfold Utils.parsePhylogramTree
  simp only [parseAux, splitIntoChildren_no_comma txt hne hcomma]
  have hr : Utils.rsplit txt ":" 1 = ["", txt] := rsplit_no_colon txt hcolon
  simp only [List.enum, List.enumFrom, List.map, hr]
  rfl

/-- Witness for C1_amended at a concrete malformed input. -/
theorem C1_witness :
    Utils.parsePhylogramTree "x" "q"
      = .mk none none none [.mk (some "") (some ("q" ++ "0")) (some "x") []] :=
  C1_amended "x" "q" (by decide) (by decide) (by decide)

/-- C1: the claim that the parser fails on malformed input is false. On the
quoted name with no colon-delimited distance at all the parser returns a
fabricated one-leaf tree instead of failing; on the empty input it returns
an empty root; on an input with an unbalanced opening bracket it silently
returns a mangled tree holding a fabricated leaf with empty name whose
distance text still carries a stray quote character. -/
theorem C1_counterexample :
    Utils.count (sq ++ "A" ++ sq) ":" 0 = 0 ∧
    Utils.parsePhylogramTree (sq ++ "A" ++ sq) "r"
      = .mk none none none [.mk (some "") (some "r0") (some (sq ++ "A" ++ sq)) []] ∧
    Utils.parsePhylogramTree "" "r" = .mk none none none [] ∧
    (nodeAt [0, 1] (Utils.parsePhylogramTree
        ("(" ++ sq ++ "A" ++ sq ++ ":1," ++ sq ++ "B" ++ sq ++ ":2") "r")).bind PNode.name
      = some "" ∧
    (nodeAt [0, 1] (Utils.parsePhylogramTree
        ("(" ++ sq ++ "A" ++ sq ++ ":1," ++ sq ++ "B" ++ sq ++ ":2") "r")).bind PNode.distToParent
      = some (sq ++ "B") := by
  exact ⟨by decide, by rfl, by rfl, by decide, by decide⟩

/-! ## C6: id assignment of the parser -/

theorem idsOkFrom_mk (pre : String) (a b c : Option String) (cs : List PNode) :
    idsOkFrom pre (.mk a b c cs) = idsOkL pre 0 cs := rfl

theorem idsOkFrom_children (pre : String) (n : PNode) :
    idsOkFrom pre n = idsOkL pre 0 n.children := by
  cases n; rfl

theorem parseAux_idsOk : ∀ (fuel : Nat) (d marker : String),
    idsOkFrom marker (parseAux fuel d marker) ∧ (parseAux fuel d marker).id = none := by
  intro fuel
  induction fuel with
  | zero => intro d marker; exact ⟨trivial, rfl⟩
  | succ n ih =>
    intro d marker
    refine ⟨?_, rfl⟩
    have key : ∀ (l : List String) (i0 : Nat),
        idsOkL marker i0 ((l.enumFrom i0).map (fun p =>
          let i := p.1
          let txt := Utils.rsplit p.2 ":" 1
          let txt0 := txt.headD ""
          let txt1 := (txt.drop 1).headD ""
          let c := Utils.count txt0 ":" 1
          if c = 0 then
            PNode.mk (some (jsSubstring txt0 1 ((txt0.data.length : Int) - 1)))
              (some (marker ++ Nat.repr i)) (some txt1) []
          else
            let child := jsSubstring txt0 1 ((txt0.data.length : Int) - 1)
            let o := parseAux n child (marker ++ Nat.repr i)
            PNode.mk o.name (some (marker ++ Nat.repr i)) (some txt1) o.children)) := by
      intro l
      induction l with
      | nil => intro i0; exact trivial
      | cons x rest ihl =>
        intro i0
        simp only [List.enumFrom, List.map]
        refine ⟨?_, ?_, ihl (i0 + 1)⟩
        · show PNode.id _ = _
          split <;> rfl
        · split
          · exact trivial
          · have h2 := (ih (jsSubstring ((Utils.rsplit x ":" 1).headD "") 1
                ((((Utils.rsplit x ":" 1).headD "").data.length : Int) - 1))
                (marker ++ Nat.repr i0)).1
            rw [idsOkFrom_children] at h2
            exact h2
    exact key (Utils.splitIntoChildren d) 0

/-- C6, the id scheme the parser actually implements: below the top level
every node id is the id stem passed down from its parent extended with the
0-based sibling position, and the root object itself is returned with no id
assigned at all. -/
theorem C6_amended : ∀ (dendrogram marker : String),
    idsOkFrom marker (Utils.parsePhylogramTree dendrogram marker)
      ∧ (Utils.parsePhylogramTree dendrogram marker).id = none := by
  intro d marker
  exact parseAux_idsOk (d.data.length + 1) d marker

/-- A 15-leaf input whose top level has thirteen children (sibling indices
0 to 12), the child at index 1 being internal with three children. -/
def txt13 : String :=
  sq ++ "A" ++ sq ++ ":1,(" ++ sq ++ "B" ++ sq ++ ":1," ++ sq ++ "C" ++ sq
    ++ ":1," ++ sq ++ "D" ++ sq ++ ":1):1," ++ sq ++ "E" ++ sq ++ ":1,"
    ++ sq ++ "F" ++ sq ++ ":1," ++ sq ++ "G" ++ sq ++ ":1," ++ sq ++ "H" ++ sq
    ++ ":1," ++ sq ++ "I" ++ sq ++ ":1," ++ sq ++ "J" ++ sq ++ ":1,"
    ++ sq ++ "K" ++ sq ++ ":1," ++ sq ++ "L" ++ sq ++ ":1," ++ sq ++ "M" ++ sq
    ++ ":1," ++ sq ++ "N" ++ sq ++ ":1," ++ sq ++ "O" ++ sq ++ ":1"

/-- C6: two parts of the claim are false on the code. The root of the parsed
tree carries no id at all (the marker is only used as a stem for the
children), and ids are not unique: in txt13 the leaf named O at sibling
position 12 of the root and the leaf named D at path 1, 2 both receive the
id r12, because the sibling position is concatenated as decimal text without
a separator. -/
theorem C6_counterexample :
    (Utils.parsePhylogramTree txt13 "r").id = none ∧
    (nodeAt [12] (Utils.parsePhylogramTree txt13 "r")).bind PNode.id = some "r12" ∧
    (nodeAt [1, 2] (Utils.parsePhylogramTree txt13 "r")).bind PNode.id = some "r12" ∧
    (nodeAt [12] (Utils.parsePhylogramTree txt13 "r")).bind PNode.name = some "O" ∧
    (nodeAt [1, 2] (Utils.parsePhylogramTree txt13 "r")).bind PNode.name = some "D" := by
  exact ⟨by decide, by decide, by decide, by decide, by decide⟩

/-! ## The hierarchy node model

Modelled from the spec: the Dendrogram class operates on d3.hierarchy nodes.
A hierarchy node wraps the parsed data object in a data field, carries a
value field (set by root.count() to the number of leaves of the subtree),
display coordinates x and y, a children list, and a parent reference. The
embedding is a functional tree: the data fields relevant to the core are
inlined (with distToParent already converted to a number, as parseFloat
does on first use), and parent references are implicit in the structure.
-/

/-- The data record of a hierarchy node. Fields the source never assigned
hold none. -/
structure NodeData where
  name : Option String
  id : Option String
  label : Option String
  distToParent : ℚ
  distance : ℚ
deriving DecidableEq

/-- A d3.hierarchy node: data record, leaf-count value, display coordinates
and the ordered children. -/
inductive HNode where
  | mk (data : NodeData) (value : Nat) (x y : ℚ) (children : List HNode)

def HNode.data : HNode → NodeData
  | .mk d _ _ _ _ => d

def HNode.value : HNode → Nat
  | .mk _ v _ _ _ => v

def HNode.x : HNode → ℚ
  | .mk _ _ x _ _ => x

def HNode.y : HNode → ℚ
  | .mk _ _ _ y _ => y

def HNode.children : HNode → List HNode
  | .mk _ _ _ _ cs => cs

/-- Induction over the nested tree structure. -/
theorem HNode.myInd (P : HNode → Prop)
    (mk : ∀ d v x y cs, (∀ c ∈ cs, P c) → P (.mk d v x y cs)) : ∀ t, P t := by
  intro t
  refine @HNode.rec P (fun l => ∀ c ∈ l, P c) ?_ ?_ ?_ t
  · intro d v x y cs ih; exact mk d v x y cs ih
  · intro c hc; cases hc
  · intro c cs hc hcs e he
    cases he with
    | head => exact hc
    | tail _ h2 => exact hcs e h2

mutual

/-- Map over every node of a tree, replacing the coordinate pair from the
data record and the old pair. Models an each traversal of d3 that only
writes node.x and node.y. -/
def mapNodeXY (f : NodeData → ℚ → ℚ → ℚ × ℚ) : HNode → HNode
  | .mk d v x y cs =>
    let p := f d x y
    .mk d v p.1 p.2 (mapNodeXYL f cs)

def mapNodeXYL (f : NodeData → ℚ → ℚ → ℚ × ℚ) : List HNode → List HNode
  | [] => []
  | c :: cs => mapNodeXY f c :: mapNodeXYL f cs

end

mutual

/-- Embeds node.leaves() of d3.hierarchy: the childless nodes of the
subtree, in traversal order; a childless node is its own single leaf. -/
def HNode.leaves : HNode → List HNode
  | .mk d v x y [] => [.mk d v x y []]
  | .mk _ _ _ _ (c :: cs) => leavesL (c :: cs)

def leavesL : List HNode → List HNode
  | [] => []
  | c :: cs => c.leaves ++ leavesL cs

end

mutual

/-- Embeds node.descendants() of d3.hierarchy: the nodes of the subtree in
preorder, the node itself first, which is also the visit order of
eachBefore. -/
def HNode.descendants : HNode → List HNode
  | .mk d v x y cs => .mk d v x y cs :: descendantsL cs

def descendantsL : List HNode → List HNode
  | [] => []
  | c :: cs => c.descendants ++ descendantsL cs

end

/-- The Dendrogram object: the root node plus the fields of dendrogram.ts
used by the core (title and leafCount play no role in the claims). -/
structure Dendrogram where
  root : HNode
  cutoff : ℚ
  flipped : Bool

/-- Embeds Dendrogram.toggleFlipped: negate the flag, touch nothing else. -/
def Dendrogram.toggleFlipped (den : Dendrogram) : Dendrogram :=
  { den with flipped := !den.flipped }

mutual

/-- Embeds the eachAfter body of Dendrogram.setDistance: in postorder, a
node with value 1 gets distance 0; any other node gets the distToParent of
its first child plus the distance of that child (the children list having
been processed first). The JS code would fault on an internal node with no
children; the model returns a junk first child there. -/
def setDistanceNode : HNode → HNode
  | .mk d v x y cs =>
    let cs' := setDistanceL cs
    if v = 1 then .mk { d with distance := 0 } v x y cs'
    else
      let c0 := cs'.headD (.mk ⟨none, none, none, 0, 0⟩ 1 0 0 [])
      .mk { d with distance := c0.data.distToParent + c0.data.distance } v x y cs'

def setDistanceL : List HNode → List HNode
  | [] => []
  | c :: cs => setDistanceNode c :: setDistanceL cs

end

/-- Embeds Dendrogram.setDistance: run the postorder pass over the root,
then set the cutoff to half the root distance. -/
def Dendrogram.setDistance (den : Dendrogram) : Dendrogram :=
  let r := setDistanceNode den.root
  { den with root := r, cutoff := r.data.distance / 2 }

mutual

/-- The sum of distToParent values along the path from the subtree root to
each leaf, one entry per leaf in traversal order; the distToParent of the
subtree root itself is not included. -/
def leafPathSums : HNode → List ℚ
  | .mk _ _ _ _ [] => [0]
  | .mk _ _ _ _ (c :: cs) => leafPathSumsL (c :: cs)

def leafPathSumsL : List HNode → List ℚ
  | [] => []
  | c :: cs =>
    (leafPathSums c).map (fun s => c.data.distToParent + s) ++ leafPathSumsL cs

end

mutual

/-- The sum of distToParent values along the all-first-children path from
the subtree root down to the leftmost leaf. -/
def firstPathSum : HNode → ℚ
  | .mk _ _ _ _ cs => firstPathSumL cs

def firstPathSumL : List HNode → ℚ
  | [] => 0
  | c :: _ => c.data.distToParent + firstPathSum c

end

mutual

/-- Checks that the value field marks exactly the childless nodes with 1,
which is what root.count() guarantees on a tree without single-child
chains; setDistance classifies leaves by value = 1. -/
def wellCountedB : HNode → Bool
  | .mk _ v _ _ cs => (((v == 1) : Bool) == cs.isEmpty) && wellCountedL cs

def wellCountedL : List HNode → Bool
  | [] => true
  | c :: cs => wellCountedB c && wellCountedL cs

end

theorem HNode.data_mk (d : NodeData) (v : Nat) (x y : ℚ) (cs : List HNode) :
    (HNode.mk d v x y cs).data = d := rfl

theorem HNode.value_mk (d : NodeData) (v : Nat) (x y : ℚ) (cs : List HNode) :
    (HNode.mk d v x y cs).value = v := rfl

theorem HNode.x_mk (d : NodeData) (v : Nat) (x y : ℚ) (cs : List HNode) :
    (HNode.mk d v x y cs).x = x := rfl

theorem HNode.y_mk (d : NodeData) (v : Nat) (x y : ℚ) (cs : List HNode) :
    (HNode.mk d v x y cs).y = y := rfl

theorem HNode.children_mk (d : NodeData) (v : Nat) (x y : ℚ) (cs : List HNode) :
    (HNode.mk d v x y cs).children = cs := rfl

theorem setDistanceNode_data (t : HNode) :
    (setDistanceNode t).data.distToParent = t.data.distToParent
      ∧ (setDistanceNode t).value = t.value := by
  cases t with
  | mk d v x y cs =>
    by_cases h : v = 1 <;>
      simp [setDistanceNode, h, HNode.data_mk, HNode.value_mk]

theorem setDistance_first_path : ∀ (t : HNode), wellCountedB t = true →
    (setDistanceNode t).data.distance = firstPathSum t := by
  intro t
  induction t using HNode.myInd with
  | mk d v x y cs ih =>
    intro hwc
    simp only [wellCountedB, Bool.and_eq_true, beq_iff_eq] at hwc
    obtain ⟨hv, hcs⟩ := hwc
    cases cs with
    | nil =>
      have hv1 : v = 1 := by simp at hv; exact hv
      simp [setDistanceNode, hv1, firstPathSum, firstPathSumL, HNode.data_mk]
    | cons c rest =>
      have hv1 : v ≠ 1 := by
        intro h
        rw [h] at hv
        simp at hv
      have hw : wellCountedB c = true := by
        simp only [wellCountedL, Bool.and_eq_true] at hcs
        exact hcs.1
      have hrec := ih c (List.mem_cons_self c rest) hw
      simp only [setDistanceNode, setDistanceL, if_neg hv1, HNode.data_mk,
        List.headD_cons, firstPathSum, firstPathSumL]
      rw [(setDistanceNode_data c).1, hrec]

/-- C2, what setDistance actually computes: after the pass the root
distance is the sum of distToParent values along the all-first-children
path to the leftmost leaf (on a tree whose value fields mark exactly the
childless nodes); it agrees with the other root-to-leaf paths only when
the tree is ultrametric. -/
theorem C2_amended : ∀ (den : Dendrogram), wellCountedB den.root = true →
    (Dendrogram.setDistance den).root.data.distance = firstPathSum den.root := by
  intro den h
  exact setDistance_first_path den.root h

/-- The parsed form of the two-leaf text with distances 1 and 2: a leaf A
at distToParent 1 and a leaf B at distToParent 2 below the root. -/
def twoLeafTree : HNode :=
  .mk ⟨none, none, none, 0, 0⟩ 2 0 0
    [.mk ⟨some "A", some "r0", none, 1, 0⟩ 1 0 0 [],
     .mk ⟨some "B", some "r1", none, 2, 0⟩ 1 0 0 []]

/-- Witness for C2_amended on the concrete two-leaf tree. -/
theorem C2_witness :
    (Dendrogram.setDistance ⟨twoLeafTree, 0, false⟩).root.data.distance
      = firstPathSum twoLeafTree :=
  C2_amended ⟨twoLeafTree, 0, false⟩ (by decide)

/-- C2: the claim is false on the parsed tree of the two-leaf text with
distances 1 and 2. setDistance only follows the first child, so the root
distance becomes 1, while the path to the second leaf sums to 2. -/
theorem C2_counterexample :
    (Dendrogram.setDistance ⟨twoLeafTree, 0, false⟩).root.data.distance = 1 ∧
    (2 : ℚ) ∈ leafPathSums (Dendrogram.setDistance ⟨twoLeafTree, 0, false⟩).root ∧
    (2 : ℚ) ≠ 1 := by
  refine ⟨?_, ?_, by norm_num⟩
  · show (setDistanceNode twoLeafTree).data.distance = 1
    simp [twoLeafTree, setDistanceNode, setDistanceL, HNode.data]
  · show (2 : ℚ) ∈ leafPathSums (setDistanceNode twoLeafTree)
    simp [twoLeafTree, setDistanceNode, setDistanceL, leafPathSums, leafPathSumsL,
      HNode.data]

/-! ## A model of the JS array sort

The children arrays are sorted with Array.prototype.sort under a caller
comparator. The model is a stable insertion sort that keeps an element
before another exactly when the comparator does not order it strictly
after; on a consistent comparator this is the sort order, and on the
inconsistent comparator of Dendrogram.sort it fixes one of the
implementation-defined outcomes (ECMAScript leaves the result unspecified
for inconsistent comparators). -/

def insertLe (le : α → α → Bool) (x : α) : List α → List α
  | [] => [x]
  | y :: ys => if le x y then x :: y :: ys else y :: insertLe le x ys

def jsSortWith (le : α → α → Bool) : List α → List α
  | [] => []
  | x :: xs => insertLe le x (jsSortWith le xs)

theorem insertLe_perm (le : α → α → Bool) (x : α) :
    ∀ (l : List α), (insertLe le x l).Perm (x :: l) := by
  intro l
  induction l with
  | nil => exact List.Perm.refl _
  | cons y ys ih =>
    by_cases h : le x y = true
    · simp [insertLe, h]
    · simp only [insertLe, if_neg h]
      exact ((ih.cons y).trans (List.Perm.swap x y ys))

theorem jsSortWith_perm (le : α → α → Bool) :
    ∀ (l : List α), (jsSortWith le l).Perm l := by
  intro l
  induction l with
  | nil => exact List.Perm.refl _
  | cons x xs ih =>
    exact (insertLe_perm le x (jsSortWith le xs)).trans (ih.cons x)

theorem mem_insertLe (le : α → α → Bool) (x : α) (l : List α) (z : α)
    (h : z ∈ insertLe le x l) : z = x ∨ z ∈ l := by
  have := (insertLe_perm le x l).mem_iff.mp h
  simpa using this

theorem mem_jsSortWith (le : α → α → Bool) (l : List α) (z : α)
    (h : z ∈ jsSortWith le l) : z ∈ l :=
  (jsSortWith_perm le l).mem_iff.mp h

theorem insertLe_pairwise (le : α → α → Bool) (G : α → Prop)
    (htot : ∀ a b, G a → G b → le a b = true ∨ le b a = true)
    (htrans : ∀ a b c, G a → G b → G c →
      le a b = true → le b c = true → le a c = true)
    (x : α) :
    ∀ (l : List α), G x → (∀ a ∈ l, G a) →
      l.Pairwise (fun a b => le a b = true) →
      (insertLe le x l).Pairwise (fun a b => le a b = true) := by
  intro l
  induction l with
  | nil => intro _ _ _; simp [insertLe]
  | cons y ys ih =>
    intro hx hl hs
    have hy : G y := hl y (List.mem_cons_self y ys)
    have hys : ∀ a ∈ ys, G a := fun a ha => hl a (List.mem_cons_of_mem y ha)
    rw [List.pairwise_cons] at hs
    by_cases h : le x y = true
    · simp only [insertLe, if_pos h]
      rw [List.pairwise_cons]
      refine ⟨?_, List.pairwise_cons.mpr hs⟩
      intro z hz
      rcases List.mem_cons.mp hz with rfl | hz2
      · exact h
      · exact htrans x y z hx hy (hys z hz2) h (hs.1 z hz2)
    · simp only [insertLe, if_neg h]
      rw [List.pairwise_cons]
      constructor
      · intro z hz
        rcases mem_insertLe le x ys z hz with heq | hz2
        · rcases htot x y hx hy with h1 | h1
          · exact absurd h1 h
          · rw [heq]; exact h1
        · exact hs.1 z hz2
      · exact ih hx hys hs.2

theorem jsSortWith_pairwise (le : α → α → Bool) (G : α → Prop)
    (htot : ∀ a b, G a → G b → le a b = true ∨ le b a = true)
    (htrans : ∀ a b c, G a → G b → G c →
      le a b = true → le b c = true → le a c = true) :
    ∀ (l : List α), (∀ a ∈ l, G a) →
      (jsSortWith le l).Pairwise (fun a b => le a b = true) := by
  intro l
  induction l with
  | nil => intro _; simp [jsSortWith]
  | cons x xs ih =>
    intro hl
    have hx : G x := hl x (List.mem_cons_self x xs)
    have hxs : ∀ a ∈ xs, G a := fun a ha => hl a (List.mem_cons_of_mem x ha)
    refine insertLe_pairwise le G htot htrans x (jsSortWith le xs) hx ?_ (ih hxs)
    intro a ha
    exact hxs a (mem_jsSortWith le xs a ha)

/-! ## Dendrogram.sort -/

/-- Character-wise lower casing, the model of the JS toLowerCase call
(locale-specific casing is out of scope). -/
def toLowerS (s : String) : String := ⟨s.data.map Char.toLower⟩

/-- The model of localeCompare: a negative, zero or positive number by
code-point lexicographic comparison. -/
def strCmp (a b : String) : Int :=
  if a.data < b.data then -1 else if b.data < a.data then 1 else 0

/-- Embeds the comparator passed by Dendrogram.sort: when both labels are
defined, compare the lower-cased labels; in every other case return -1. -/
def Dendrogram.sortCompare (a b : HNode) : Int :=
  match a.data.label, b.data.label with
  | some la, some lb => strCmp (toLowerS la) (toLowerS lb)
  | _, _ => -1

/-- The keep-before test the sort model derives from the comparator. -/
def sortLe (a b : HNode) : Bool := decide (Dendrogram.sortCompare a b ≤ 0)

mutual

/-- Embeds Dendrogram.sort: every children array is rearranged with the
comparator. The source sorts a children array before descending into it;
since the pass rewrites no data field and the comparator reads only
labels, descending first produces the same arrangement. -/
def Dendrogram.sortNode : HNode → HNode
  | .mk d v x y cs => .mk d v x y (jsSortWith sortLe (sortNodeL cs))

def sortNodeL : List HNode → List HNode
  | [] => []
  | c :: cs => Dendrogram.sortNode c :: sortNodeL cs

end

theorem sortNode_data (t : HNode) : (Dendrogram.sortNode t).data = t.data := by
  cases t; rfl

theorem sortNodeL_eq_map :
    ∀ (cs : List HNode), sortNodeL cs = cs.map Dendrogram.sortNode := by
  intro cs
  induction cs with
  | nil => rfl
  | cons c rest ih => simp [sortNodeL, ih]

theorem insertLe_map_comm (f : α → α) (le : α → α → Bool)
    (h : ∀ a b, le (f a) (f b) = le a b) (x : α) :
    ∀ (l : List α), insertLe le (f x) (l.map f) = (insertLe le x l).map f := by
  intro l
  induction l with
  | nil => rfl
  | cons y ys ih =>
    show insertLe le (f x) (f y :: ys.map f) = _
    unfold insertLe
    rw [h x y]
    by_cases hxy : le x y = true
    · simp only [hxy, if_true, List.map]
    · simp only [hxy, Bool.false_eq_true, if_false, List.map, ih]

theorem jsSortWith_map_comm (f : α → α) (le : α → α → Bool)
    (h : ∀ a b, le (f a) (f b) = le a b) :
    ∀ (l : List α), jsSortWith le (l.map f) = (jsSortWith le l).map f := by
  intro l
  induction l with
  | nil => rfl
  | cons x xs ih =>
    show insertLe le (f x) (jsSortWith le (xs.map f)) = _
    rw [ih, insertLe_map_comm f le h x]
    rfl

theorem sortLe_sortNode (a b : HNode) :
    sortLe (Dendrogram.sortNode a) (Dendrogram.sortNode b) = sortLe a b := by
  unfold sortLe Dendrogram.sortCompare
  rw [sortNode_data, sortNode_data]

/-- The embedding of Dendrogram.sort descends before sorting; the source
sorts a children array and then descends. The two orders coincide, because
the recursive pass keeps every data field and the comparator reads only
labels. -/
theorem sortNode_order_indifferent (cs : List HNode) :
    jsSortWith sortLe (cs.map Dendrogram.sortNode)
      = (jsSortWith sortLe cs).map Dendrogram.sortNode :=
  jsSortWith_map_comm Dendrogram.sortNode sortLe sortLe_sortNode cs

/-- Case-insensitive label order on nodes, the order the claim describes. -/
def ciLe (a b : HNode) : Prop :=
  (toLowerS (jsStr a.data.label)).data ≤ (toLowerS (jsStr b.data.label)).data

theorem strCmp_le_zero (a b : String) : strCmp a b ≤ 0 ↔ a.data ≤ b.data := by
  unfold strCmp
  rcases lt_trichotomy a.data b.data with h | h | h
  · simp [h, le_of_lt h]
  · simp [h, le_of_eq h, lt_irrefl]
  · rw [if_neg (not_lt_of_gt h), if_pos h]
    constructor
    · intro h2; exact absurd h2 (by norm_num)
    · intro h2; exact absurd h2 (not_le_of_lt h)

theorem sortLe_of_labels (a b : HNode) (la lb : String)
    (ha : a.data.label = some la) (hb : b.data.label = some lb) :
    sortLe a b = true ↔ (toLowerS la).data ≤ (toLowerS lb).data := by
  unfold sortLe Dendrogram.sortCompare
  rw [ha, hb]
  simp [strCmp_le_zero]

/-- C7, what the sort pass guarantees: the children of every node are a
rearrangement of the recursively sorted original children, and when every
child label is defined the rearrangement is ordered by the
case-insensitive label comparison. When some label is unset the comparator
answers -1 regardless of argument order, so no placement of the unset
children is forced; under the stable sort model a child with an unset
label stays after a labelled sibling it followed. -/
theorem C7_amended : ∀ (n : HNode),
    ((Dendrogram.sortNode n).children.Perm (n.children.map Dendrogram.sortNode)) ∧
    ((∀ c ∈ n.children, c.data.label ≠ none) →
      (Dendrogram.sortNode n).children.Pairwise ciLe) := by
  intro n
  cases n with
  | mk d v x y cs =>
    rw [show (Dendrogram.sortNode (.mk d v x y cs)).children
        = jsSortWith sortLe (sortNodeL cs) from rfl]
    constructor
    · rw [sortNodeL_eq_map]
      exact jsSortWith_perm sortLe (cs.map Dendrogram.sortNode)
    · intro hdef
      have hG : ∀ a ∈ sortNodeL cs, a.data.label ≠ none := by
        intro a ha
        rw [sortNodeL_eq_map] at ha
        rcases List.mem_map.mp ha with ⟨c, hc, rfl⟩
        rw [sortNode_data]
        exact hdef c hc
      have hp := jsSortWith_pairwise sortLe (fun a => a.data.label ≠ none)
        ?_ ?_ (sortNodeL cs) hG
      · refine hp.imp_of_mem ?_
        intro a b hma hmb hab
        have hGa := hG a (mem_jsSortWith _ _ _ hma)
        have hGb := hG b (mem_jsSortWith _ _ _ hmb)
        rcases Option.ne_none_iff_exists'.mp hGa with ⟨la, hla⟩
        rcases Option.ne_none_iff_exists'.mp hGb with ⟨lb, hlb⟩
        have := (sortLe_of_labels a b la lb hla hlb).mp hab
        unfold ciLe
        rw [hla, hlb]
        exact this
      · intro a b hGa hGb
        rcases Option.ne_none_iff_exists'.mp hGa with ⟨la, hla⟩
        rcases Option.ne_none_iff_exists'.mp hGb with ⟨lb, hlb⟩
        rw [sortLe_of_labels a b la lb hla hlb,
          sortLe_of_labels b a lb la hlb hla]
        exact le_total _ _
      · intro a b c hGa hGb hGc h1 h2
        rcases Option.ne_none_iff_exists'.mp hGa with ⟨la, hla⟩
        rcases Option.ne_none_iff_exists'.mp hGb with ⟨lb, hlb⟩
        rcases Option.ne_none_iff_exists'.mp hGc with ⟨lc, hlc⟩
        rw [sortLe_of_labels a b la lb hla hlb] at h1
        rw [sortLe_of_labels b c lb lc hlb hlc] at h2
        rw [sortLe_of_labels a c la lc hla hlc]
        exact le_trans h1 h2

/-- A parent whose first child carries label a and whose second child has
no label. -/
def sortCtrTree : HNode :=
  .mk ⟨none, none, none, 0, 0⟩ 2 0 0
    [.mk ⟨none, none, some "a", 0, 0⟩ 1 0 0 [],
     .mk ⟨none, none, none, 0, 0⟩ 1 0 0 []]

/-- Witness for C7_amended: on a node whose two children carry labels B and
a, the sorted children are ordered by the case-insensitive comparison. -/
theorem C7_witness :
    (Dendrogram.sortNode (.mk ⟨none, none, none, 0, 0⟩ 2 0 0
      [.mk ⟨none, none, some "B", 0, 0⟩ 1 0 0 [],
       .mk ⟨none, none, some "a", 0, 0⟩ 1 0 0 []])).children.Pairwise ciLe :=
  (C7_amended _).2 (by decide)

/-- C7: the claim that every child with an unset label is ordered before
every sibling with a set label is false. On a node whose children are a
labelled child followed by an unlabelled one, the comparator returns -1
for the pair in that order, so the sort keeps the labelled child first and
the unlabelled child stays last. -/
theorem C7_counterexample :
    (Dendrogram.sortNode sortCtrTree).children.map (fun c => c.data.label)
      = [some "a", none] := by decide

/-! ## Dendrogram.setLabels -/

/-- Code-point order on strings as a Bool test, the model of the default
string comparison of Array.prototype.sort. -/
def strLeB (a b : String) : Bool := decide (a.data ≤ b.data)

/-- The model of the default Array.prototype.sort on an array of strings
that may hold undefined entries: ECMAScript always moves undefined
elements to the end and compares the remaining elements as strings. -/
def jsSortOpt (l : List (Option String)) : List (Option String) :=
  ((jsSortWith strLeB (l.filterMap id)).map some)
    ++ List.replicate (l.countP (fun o => o.isNone)) none

/-- The join loop of setLabels: label starts as the first entry (possibly
undefined) and each further entry appends separator and the entry, with
JS undefined-to-text coercion; an empty collection leaves the label
undefined (reading past the end of the array). -/
def jsJoin (sep : String) : List (Option String) → Option String
  | [] => none
  | x :: rest =>
    match rest with
    | [] => x
    | _ => some (rest.foldl (fun a n => a ++ sep ++ jsStr n) (jsStr x))

/-- The keep-first dedup of setLabels: filter(indexOf(item) == pos). -/
def jsDedupAux [BEq α] : List α → List α → List α
  | _, [] => []
  | seen, x :: xs =>
    if seen.contains x then jsDedupAux seen xs
    else x :: jsDedupAux (seen ++ [x]) xs

def jsDedup [BEq α] (l : List α) : List α := jsDedupAux [] l

/-- The collection loop of setLabels: for each child take its label; with
keepDuplicates the labels are taken as they are (possibly undefined); with
keepDuplicates false each label is split on the separator, which in JS
faults on an undefined label (modelled as none). -/
def collectNames (keepDuplicates : Bool) (separator : String)
    (cs : List HNode) : Option (List (Option String)) :=
  if keepDuplicates then some (cs.map (fun c => c.data.label))
  else
    (cs.mapM (fun (c : HNode) => c.data.label)).map (fun ls =>
      (ls.flatMap (fun s => jsSplit s separator)).map some)

mutual

/-- Embeds the eachAfter pass of Dendrogram.setLabels: children first; a
node with value 1 keeps its label; a node whose distance exceeds the
cutoff gets its label unset; otherwise the children labels are collected,
sorted by the default array sort, deduplicated when keepDuplicates is
false, joined with the separator and wrapped in the marker character when
keepStructure is set. The run faults (none) exactly where the JS code
would throw, namely splitting an undefined child label. -/
def setLabelsNode (keepStructure keepDuplicates : Bool) (separator : String)
    (cutoff : ℚ) : HNode → Option HNode
  | .mk d v x y cs =>
    (setLabelsL keepStructure keepDuplicates separator cutoff cs).bind (fun cs' =>
      if v = 1 then some (.mk d v x y cs')
      else if cutoff < d.distance then
        some (.mk { d with label := none } v x y cs')
      else
        (collectNames keepDuplicates separator cs').map (fun childNames =>
          let sorted := jsSortOpt childNames
          let sorted2 := if keepDuplicates then sorted else jsDedup sorted
          let joined := jsJoin separator sorted2
          let lbl := if keepStructure then some ("_" ++ jsStr joined ++ "_")
            else joined
          .mk { d with label := lbl } v x y cs'))

def setLabelsL (keepStructure keepDuplicates : Bool) (separator : String)
    (cutoff : ℚ) : List HNode → Option (List HNode)
  | [] => some []
  | c :: cs =>
    (setLabelsNode keepStructure keepDuplicates separator cutoff c).bind
      (fun c' => (setLabelsL keepStructure keepDuplicates separator cutoff cs).map
        (fun cs' => c' :: cs'))

end

/-- Embeds Dendrogram.setLabels at the Dendrogram level, against the stored
cutoff. -/
def Dendrogram.setLabels (keepStructure keepDuplicates : Bool)
    (separator : String) (den : Dendrogram) : Option Dendrogram :=
  (setLabelsNode keepStructure keepDuplicates separator den.cutoff den.root).map
    (fun r => { den with root := r })

/-! The claim-side label expression, built from the words of the spec: the
collected tokens of the children, sorted case-sensitively, joined with the
separator, wrapped in the marker exactly when keepStructure is set. -/

def specJoinTail (sep : String) : List String → String
  | [] => ""
  | t :: rest => sep ++ t ++ specJoinTail sep rest

def specJoin (sep : String) : List String → String
  | [] => ""
  | s :: rest => s ++ specJoinTail sep rest

/-- The label the specification predicts for an internal node within the
cutoff whose children carry the labels ls: tokens are the labels themselves
(keepDuplicates) or their separator components (otherwise), sorted
case-sensitively by code points, deduplicated in the second mode, joined
with the separator, and wrapped when keepStructure is set. -/
def specLabel (ks kd : Bool) (sep : String) (ls : List String) : String :=
  let tokens := if kd then ls else ls.flatMap (fun s => jsSplit s sep)
  let sorted := jsSortWith strLeB tokens
  let sorted2 := if kd then sorted else jsDedup sorted
  let core := specJoin sep sorted2
  if ks then "_" ++ core ++ "_" else core

theorem stringAppendEmpty (s : String) : s ++ "" = s := by
  cases s with
  | mk l =>
    show String.mk (l ++ []) = String.mk l
    simp

theorem stringAppendAssoc (a b c : String) : a ++ b ++ c = a ++ (b ++ c) := by
  cases a; cases b; cases c
  show String.mk (_ ++ _ ++ _) = String.mk (_ ++ (_ ++ _))
  simp

theorem foldl_join (sep : String) :
    ∀ (l : List String) (acc : String),
      (l.map some).foldl (fun a n => a ++ sep ++ jsStr n) acc
        = acc ++ specJoinTail sep l := by
  intro l
  induction l with
  | nil => intro acc; simp [specJoinTail, stringAppendEmpty]
  | cons t rest ih =>
    intro acc
    simp only [List.map, List.foldl, specJoinTail]
    rw [show jsStr (some t) = t from rfl]
    rw [ih (acc ++ sep ++ t)]
    rw [stringAppendAssoc (acc ++ sep) t _, stringAppendAssoc acc sep _,
      stringAppendAssoc sep t (specJoinTail sep rest)]

theorem jsJoin_all_some (sep : String) :
    ∀ (ls : List String), ls ≠ [] →
      jsJoin sep (ls.map some) = some (specJoin sep ls) := by
  intro ls hne
  cases ls with
  | nil => exact absurd rfl hne
  | cons a rest =>
    cases rest with
    | nil => simp [jsJoin, specJoin, specJoinTail, stringAppendEmpty]
    | cons b rest2 =>
      show jsJoin sep (some a :: some b :: rest2.map some) = _
      unfold jsJoin
      simp only []
      rw [show ((some b :: rest2.map some) : List (Option String))
        = ((b :: rest2).map some) from rfl]
      rw [foldl_join sep (b :: rest2) (jsStr (some a))]
      rfl

theorem jsSortOpt_all_some (ls : List String) :
    jsSortOpt (ls.map some) = (jsSortWith strLeB ls).map some := by
  unfold jsSortOpt
  have h1 : (ls.map some).filterMap id = ls := by
    induction ls with
    | nil => rfl
    | cons a rest ih => simp [List.filterMap_cons, ih]
  have h2 : (ls.map some).countP (fun o => o.isNone) = 0 := by
    induction ls with
    | nil => rfl
    | cons a rest ih => simp [List.countP_cons, ih]
  rw [h1, h2]
  simp

theorem contains_map_some (seen : List String) (x : String) :
    (seen.map some).contains (some x) = seen.contains x := by
  induction seen with
  | nil => rfl
  | cons a rest ih =>
    simp only [List.map, List.contains_cons, ih]
    rfl

theorem jsDedupAux_map_some :
    ∀ (l seen : List String),
      jsDedupAux (seen.map some) (l.map some) = (jsDedupAux seen l).map some := by
  intro l
  induction l with
  | nil => intro seen; rfl
  | cons x xs ih =>
    intro seen
    show jsDedupAux (seen.map some) (some x :: xs.map some) = _
    unfold jsDedupAux
    rw [contains_map_some]
    by_cases h : seen.contains x = true
    · simp only [h, if_true]
      exact ih seen
    · rw [Bool.not_eq_true] at h
      simp only [h, Bool.false_eq_true, if_false]
      rw [show (seen.map some ++ [some x]) = ((seen ++ [x]).map some) by simp]
      rw [ih (seen ++ [x])]
      rfl

theorem jsDedup_map_some (l : List String) :
    jsDedup (l.map some) = (jsDedup l).map some :=
  jsDedupAux_map_some l []

theorem jsDedup_ne_nil (a : String) (l : List String) :
    jsDedup (a :: l) ≠ [] := by
  unfold jsDedup jsDedupAux
  simp [List.contains]

theorem jsSortWith_ne_nil (le : α → α → Bool) (l : List α) (h : l ≠ []) :
    jsSortWith le l ≠ [] := by
  intro hcon
  have := (jsSortWith_perm le l).length_eq
  rw [hcon] at this
  cases l with
  | nil => exact h rfl
  | cons a rest => simp at this

theorem jsSplitAux_ne_nil (sep : List Char) :
    ∀ (fuel : Nat) (s acc : List Char), jsSplitAux sep fuel s acc ≠ [] := by
  intro fuel
  induction fuel with
  | zero => intro s acc; simp [jsSplitAux]
  | succ n ih =>
    intro s acc
    cases s with
    | nil => simp [jsSplitAux]
    | cons c rest =>
      unfold jsSplitAux
      by_cases h : sep.isPrefixOf (c :: rest) = true
      · simp [h]
      · rw [Bool.not_eq_true] at h
        simp only [h, Bool.false_eq_true, if_false]
        exact ih rest (c :: acc)

theorem jsSplit_ne_nil (s sep : String) (h : sep ≠ "") : jsSplit s sep ≠ [] := by
  unfold jsSplit
  cases hsep : sep.data with
  | nil =>
    exact absurd (by cases sep with | mk l => cases l with
      | nil => rfl
      | cons a r => simp at hsep) h
  | cons a r =>
    simp only []
    intro hcon
    exact jsSplitAux_ne_nil (a :: r) (s.data.length + 1) s.data []
      (List.map_eq_nil_iff.mp hcon)

theorem iteTrueBool (a b : α) : (if (true : Bool) = true then a else b) = a := rfl

theorem iteFalseBool (a b : α) : (if (false : Bool) = true then a else b) = b := rfl

theorem mapM_label_of_map (ls : List String) :
    ∀ (cs : List HNode),
      cs.map (fun c => c.data.label) = ls.map some →
      cs.mapM (fun c => c.data.label) = some ls := by
  induction ls with
  | nil =>
    intro cs h
    cases cs with
    | nil => rfl
    | cons c rest => simp at h
  | cons l rest ih =>
    intro cs h
    cases cs with
    | nil => simp at h
    | cons c crest =>
      simp only [List.map] at h
      have h1 : c.data.label = some l := (List.cons.injEq _ _ _ _ ▸ h).1
      have h2 : crest.map (fun c => c.data.label) = rest.map some :=
        (List.cons.injEq _ _ _ _ ▸ h).2
      rw [List.mapM_cons, h1, ih crest h2]
      rfl

/-- C3, the label rule setLabels actually implements: an internal node
whose distance exceeds the cutoff has its label unset; an internal node
within the cutoff whose children all end up with defined labels ls gets
exactly the spec label (tokens sorted case-sensitively, joined, wrapped
when keepStructure). When some child label is undefined the rule breaks:
with keepDuplicates the JS string coercion splices the text undefined into
the label, and without keepDuplicates the whole pass faults. -/
theorem C3_amended : ∀ (ks kd : Bool) (sep : String) (cutoff : ℚ)
    (d : NodeData) (v : Nat) (x y : ℚ) (cs : List HNode) (res : HNode),
    setLabelsNode ks kd sep cutoff (.mk d v x y cs) = some res → v ≠ 1 →
    ((cutoff < d.distance → res.data.label = none) ∧
     (∀ ls : List String, ¬ cutoff < d.distance → ls ≠ [] → sep ≠ "" →
        res.children.map (fun c => c.data.label) = ls.map some →
        res.data.label = some (specLabel ks kd sep ls))) := by
  intro ks kd sep cutoff d v x y cs res hrun hv
  rw [show setLabelsNode ks kd sep cutoff (.mk d v x y cs)
      = (setLabelsL ks kd sep cutoff cs).bind (fun cs' =>
        if v = 1 then some (.mk d v x y cs')
        else if cutoff < d.distance then
          some (.mk { d with label := none } v x y cs')
        else
          (collectNames kd sep cs').map (fun childNames =>
            let sorted := jsSortOpt childNames
            let sorted2 := if kd then sorted else jsDedup sorted
            let joined := jsJoin sep sorted2
            let lbl := if ks then some ("_" ++ jsStr joined ++ "_") else joined
            .mk { d with label := lbl } v x y cs')) from rfl] at hrun
  rcases Option.bind_eq_some.mp hrun with ⟨cs', hcs', hbr⟩
  rw [if_neg hv] at hbr
  constructor
  · intro hcut
    rw [if_pos hcut] at hbr
    have h1 := Option.some_inj.mp hbr
    rw [← h1]
    rfl
  · intro ls hcut hlsne hsep hmap
    rw [if_neg hcut] at hbr
    rcases Option.map_eq_some'.mp hbr with ⟨childNames, hcn, hres⟩
    have hch : res.children = cs' := by rw [← hres]; rfl
    rw [hch] at hmap
    subst hres
    cases kd with
    | true =>
      have h1 : cs'.map (fun c => c.data.label) = childNames :=
        Option.some_inj.mp hcn
      have hcn2 : childNames = ls.map some := by rw [← h1]; exact hmap
      subst hcn2
      show (if ks then some ("_" ++ jsStr (jsJoin sep
          (if (true : Bool) = true then jsSortOpt (ls.map some)
            else jsDedup (jsSortOpt (ls.map some)))) ++ "_")
          else jsJoin sep (if (true : Bool) = true then jsSortOpt (ls.map some)
            else jsDedup (jsSortOpt (ls.map some)))) = some (specLabel ks true sep ls)
      rw [iteTrueBool, jsSortOpt_all_some]
      rw [jsJoin_all_some sep _ (jsSortWith_ne_nil strLeB ls hlsne)]
      cases ks with
      | true => simp [specLabel, jsStr, iteTrueBool]
      | false => simp [specLabel, iteFalseBool]
    | false =>
      rw [show collectNames false sep cs'
          = (cs'.mapM (fun (c : HNode) => c.data.label)).map (fun ls2 =>
            (ls2.flatMap (fun s => jsSplit s sep)).map some) from rfl] at hcn
      rw [mapM_label_of_map ls cs' hmap] at hcn
      have hcn2 : childNames = (ls.flatMap (fun s => jsSplit s sep)).map some := by
        rcases Option.map_eq_some'.mp hcn with ⟨a, ha, hb⟩
        have ha2 : ls = a := Option.some_inj.mp ha
        rw [← hb, ← ha2]
      subst hcn2
      have htne : ls.flatMap (fun s => jsSplit s sep) ≠ [] := by
        cases ls with
        | nil => exact absurd rfl hlsne
        | cons a rest =>
          simp only [List.flatMap_cons]
          intro hcon
          exact jsSplit_ne_nil a sep hsep (List.append_eq_nil.mp hcon).1
      have hsne : jsSortWith strLeB (ls.flatMap (fun s => jsSplit s sep)) ≠ [] :=
        jsSortWith_ne_nil _ _ htne
      have hdne : jsDedup (jsSortWith strLeB
          (ls.flatMap (fun s => jsSplit s sep))) ≠ [] := by
        cases hsl : jsSortWith strLeB (ls.flatMap (fun s => jsSplit s sep)) with
        | nil => exact absurd hsl hsne
        | cons a rest => exact jsDedup_ne_nil a rest
      show (if ks then some ("_" ++ jsStr (jsJoin sep
          (if (false : Bool) = true
            then jsSortOpt ((ls.flatMap (fun s => jsSplit s sep)).map some)
            else jsDedup (jsSortOpt ((ls.flatMap (fun s => jsSplit s sep)).map some)))) ++ "_")
          else jsJoin sep (if (false : Bool) = true
            then jsSortOpt ((ls.flatMap (fun s => jsSplit s sep)).map some)
            else jsDedup (jsSortOpt ((ls.flatMap (fun s => jsSplit s sep)).map some))))
        = some (specLabel ks false sep ls)
      rw [iteFalseBool, jsSortOpt_all_some, jsDedup_map_some]
      rw [jsJoin_all_some sep _ hdne]
      cases ks with
      | true => simp [specLabel, jsStr, iteFalseBool]
      | false => simp [specLabel, iteFalseBool]

/-- Two labelled leaves (labels B and a) under a node at distance 1. -/
def leafW1 : HNode := .mk ⟨none, none, some "B", 2, 0⟩ 1 0 0 []

def leafW2 : HNode := .mk ⟨none, none, some "a", 2, 0⟩ 1 0 0 []

/-- The result of setLabels(true, true, -) with cutoff 5 on that node: the
case-sensitive sort puts B before a and the label is wrapped. -/
def nodeWRes : HNode := .mk ⟨none, none, some "_B-a_", 0, 1⟩ 2 0 0 [leafW1, leafW2]

/-- Witness for C3_amended on the concrete two-leaf node. -/
theorem C3_witness : nodeWRes.data.label = some (specLabel true true "-" ["B", "a"]) :=
  (C3_amended true true "-" 5 ⟨none, none, none, 0, 1⟩ 2 0 0 [leafW1, leafW2]
      nodeWRes (by rfl) (by decide)).2
    ["B", "a"] (by norm_num) (by decide) (by decide) (by decide)

/-- A tree with distances as setDistance computes them: the root (distance
1, within a cutoff of 1) has a labelled leaf child A and an internal child
at distance 90 (beyond the cutoff, so its label is unset by the pass). -/
def tCtr : HNode := .mk ⟨none, none, none, 0, 1⟩ 3 0 0
  [.mk ⟨some "A", none, some "A", 1, 0⟩ 1 0 0 [],
   .mk ⟨none, none, none, 1, 90⟩ 2 0 0
     [.mk ⟨some "B", none, some "B", 90, 0⟩ 1 0 0 [],
      .mk ⟨some "C", none, some "C", 90, 0⟩ 1 0 0 []]]

/-- C3: the claim is false when a child of a within-cutoff internal node
lies beyond the cutoff. On tCtr with cutoff 1 the children end the pass
with labels A and unset, so the collected tokens are exactly A and the
claim predicts the label _A_; the code instead coerces the unset label to
the text undefined and produces _A-undefined_. -/
theorem C3_counterexample :
    ((setLabelsNode true true "-" 1 tCtr).map (fun r => r.data.label))
      = some (some "_A-undefined_") ∧
    ((setLabelsNode true true "-" 1 tCtr).map
        (fun r => r.children.map (fun c => c.data.label)))
      = some [some "A", none] ∧
    specLabel true true "-" ["A"] = "_A_" ∧
    some "_A-undefined_" ≠ some (specLabel true true "-" ["A"]) := by
  refine ⟨by rfl, by rfl, by rfl, by decide⟩

/-! ## Dendrogram.findMatchingClusters -/

/-- Embeds Dendrogram._matchCluster: walk the other tree in the eachBefore
order (preorder) and stop at the first node whose label is defined on the
searched side, whose value is at least minChildren, and whose label equals
the searched label; the pair is the produced ClusterMatch. -/
def Dendrogram.matchCluster (node : HNode) (other : HNode) (minChildren : Nat) :
    Option (HNode × HNode) :=
  (other.descendants.find? (fun trgt =>
    node.data.label.isSome && decide (minChildren ≤ trgt.value)
      && (node.data.label == trgt.data.label))).map (fun t => (node, t))

mutual

/-- Embeds Dendrogram.findMatchingClusters: below the trivial threshold
return nothing; otherwise return the single match found in the other tree,
or recurse into the children and concatenate (the null filter of the
source drops nothing, because the concatenated lists hold no nulls). -/
def Dendrogram.findMatchingClusters (node : HNode) (other : HNode)
    (minChildren : Nat) : List (HNode × HNode) :=
  match node with
  | .mk d v x y cs =>
    if v < minChildren then []
    else
      match Dendrogram.matchCluster (.mk d v x y cs) other minChildren with
      | some m => [m]
      | none => findMatchingClustersL cs other minChildren

def findMatchingClustersL (cs : List HNode) (other : HNode)
    (minChildren : Nat) : List (HNode × HNode) :=
  match cs with
  | [] => []
  | c :: rest =>
    Dendrogram.findMatchingClusters c other minChildren
      ++ findMatchingClustersL rest other minChildren

end

theorem mem_findL (cs : List HNode) (other : HNode) (m : Nat) (p : HNode × HNode) :
    p ∈ findMatchingClustersL cs other m
      ↔ ∃ c ∈ cs, p ∈ Dendrogram.findMatchingClusters c other m := by
  induction cs with
  | nil => simp [findMatchingClustersL]
  | cons c rest ih =>
    simp only [findMatchingClustersL, List.mem_append, ih, List.mem_cons]
    constructor
    · rintro (h | ⟨c2, hc2, hp⟩)
      · exact ⟨c, Or.inl rfl, h⟩
      · exact ⟨c2, Or.inr hc2, hp⟩
    · rintro ⟨c2, hc2 | hc2, hp⟩
      · rw [hc2] at hp; exact Or.inl hp
      · exact Or.inr ⟨c2, hc2, hp⟩

theorem matchCluster_some (node other : HNode) (m : Nat) (p : HNode × HNode)
    (h : Dendrogram.matchCluster node other m = some p) :
    p.1 = node ∧ m ≤ p.2.value := by
  unfold Dendrogram.matchCluster at h
  rcases Option.map_eq_some'.mp h with ⟨t, ht, hp⟩
  have hpred := List.find?_some ht
  simp only [Bool.and_eq_true, decide_eq_true_eq] at hpred
  exact ⟨by rw [← hp], by rw [← hp]; exact hpred.1.2⟩

/-- C4: findMatchingClusters returns only matches whose source and target
both have value at least minLeaves, returns nothing at all below a source
node whose value is under the threshold (so it never descends below one),
and returns the empty list rather than an error when no node of the other
tree reaches the threshold. -/
theorem C4_matching_clusters : ∀ (node other : HNode) (m : Nat),
    (∀ p ∈ Dendrogram.findMatchingClusters node other m,
      m ≤ p.1.value ∧ m ≤ p.2.value) ∧
    (node.value < m → Dendrogram.findMatchingClusters node other m = []) ∧
    ((∀ t ∈ other.descendants, t.value < m) →
      Dendrogram.findMatchingClusters node other m = []) := by
  intro node other m
  induction node using HNode.myInd with
  | mk d v x y cs ih =>
    refine ⟨?_, ?_, ?_⟩
    · intro p hp
      unfold Dendrogram.findMatchingClusters at hp
      by_cases hv : v < m
      · rw [if_pos hv] at hp; cases hp
      · rw [if_neg hv] at hp
        cases hmc : Dendrogram.matchCluster (.mk d v x y cs) other m with
        | some q =>
          rw [hmc] at hp
          rcases List.mem_singleton.mp hp with rfl
          rcases matchCluster_some _ other m p hmc with ⟨hp1, hp2⟩
          refine ⟨?_, hp2⟩
          rw [hp1]
          exact le_of_not_lt hv
        | none =>
          rw [hmc] at hp
          rcases (mem_findL cs other m p).mp hp with ⟨c, hc, hpc⟩
          exact ((ih c hc).1) p hpc
    · intro hv
      have hv2 : v < m := hv
      unfold Dendrogram.findMatchingClusters
      rw [if_pos hv2]
    · intro hother
      unfold Dendrogram.findMatchingClusters
      by_cases hv : v < m
      · rw [if_pos hv]
      · rw [if_neg hv]
        have hnone : Dendrogram.matchCluster (.mk d v x y cs) other m = none := by
          unfold Dendrogram.matchCluster
          rw [List.find?_eq_none.mpr (by
            intro t ht
            simp only [Bool.and_eq_true, decide_eq_true_eq]
            intro hP
            exact absurd hP.1.2 (not_le_of_lt (hother t ht)))]
          rfl
        rw [hnone]
        have hlist : ∀ (l : List HNode), (∀ c ∈ l,
            Dendrogram.findMatchingClusters c other m = []) →
            findMatchingClustersL l other m = [] := by
          intro l
          induction l with
          | nil => intro _; rfl
          | cons c rest ihl =>
            intro hall
            show Dendrogram.findMatchingClusters c other m
              ++ findMatchingClustersL rest other m = []
            rw [hall c (List.mem_cons_self c rest),
              ihl (fun c2 hc2 => hall c2 (List.mem_cons_of_mem c hc2))]
            rfl
        exact hlist cs (fun c hc => ((ih c hc).2.2) hother)

/-! Concrete trees for the C4 witness. -/

def c4Leaf1 : HNode := .mk ⟨some "B", some "r00", some "_B-C_", 1, 0⟩ 1 0 0 []

def c4Leaf2 : HNode := .mk ⟨some "C", some "r01", some "_B-C_", 1, 0⟩ 1 0 0 []

/-- A source cluster of two leaves labelled _B-C_. -/
def c4Src : HNode := .mk ⟨none, some "r0", some "_B-C_", 1, 1⟩ 2 0 0 [c4Leaf1, c4Leaf2]

def c4TgtInner : HNode :=
  .mk ⟨none, some "s0", some "_B-C_", 1, 1⟩ 2 0 0
    [.mk ⟨some "B", some "s00", some "_B-C2_", 1, 0⟩ 1 0 0 [],
     .mk ⟨some "C", some "s01", some "_B-C2_", 1, 0⟩ 1 0 0 []]

/-- A target tree holding a matching cluster below an unmatched root. -/
def c4Tgt : HNode :=
  .mk ⟨none, some "s", some "_A-B-C_", 1, 2⟩ 3 0 0
    [c4TgtInner, .mk ⟨some "A", some "s1", some "_A_", 2, 0⟩ 1 0 0 []]

/-- A target tree in which every node is below the threshold 3. -/
def c4TgtSmall : HNode :=
  .mk ⟨none, some "s", some "_B-C_", 1, 1⟩ 2 0 0
    [.mk ⟨some "B", some "s0", some "_B_", 1, 0⟩ 1 0 0 [],
     .mk ⟨some "C", some "s1", some "_C_", 1, 0⟩ 1 0 0 []]

/-- Witness for C4_matching_clusters: a real match found at threshold 2
has both values at least 2; a threshold of 10 empties the result at the
guard; and when every target node is below the threshold the result is
empty as well. -/
theorem C4_witness :
    (2 ≤ c4Src.value ∧ 2 ≤ c4TgtInner.value) ∧
    Dendrogram.findMatchingClusters c4Src c4Tgt 10 = [] ∧
    Dendrogram.findMatchingClusters c4Src c4TgtSmall 3 = [] := by
  refine ⟨?_, ?_, ?_⟩
  · exact (C4_matching_clusters c4Src c4Tgt 2).1 (c4Src, c4TgtInner)
      (List.Mem.head _)
  · exact (C4_matching_clusters c4Src c4Tgt 10).2.1 (by decide)
  · exact (C4_matching_clusters c4Src c4TgtSmall 3).2.2 (by decide)

/-! ## ClusterMatch.initEqualBranches: partner eligibility -/

/-- The view of a worklist node that the findIndex callback of
initEqualBranches reads: its value, name, label and id, and the label and
id of its parent. -/
structure WEntry where
  value : Nat
  name : Option String
  label : Option String
  id : String
  parentLabel : Option String
  parentId : String
deriving DecidableEq

namespace ClusterMatch

/-- Embeds the findIndex callback of ClusterMatch.initEqualBranches, with
this bound to the popped node n and ele a candidate target: a popped leaf
requires equal names and equal parent labels; a popped internal node
requires both parent labels defined, the candidate not a leaf, equal own
labels and equal parent labels. Equality is the JS strict equality, under
which two undefined values are equal. -/
def pairEligible (n ele : WEntry) : Bool :=
  if n.value = 1 then
    (n.name == ele.name) && (n.parentLabel == ele.parentLabel)
  else
    n.parentLabel.isSome && ele.parentLabel.isSome
      && !(ele.value == 1)
      && (n.label == ele.label)
      && (n.parentLabel == ele.parentLabel)

/-- The search for a partner in the target worklist: index of the first
eligible entry, as targetNodes.findIndex does. -/
def findPartner (n : WEntry) (targets : List WEntry) : Option Nat :=
  targets.findIdx? (fun ele => pairEligible n ele)

end ClusterMatch

/-- C5, the eligibility rule the code implements for an internal popped
node: a partner requires both parent labels defined and equal, a
non-leaf candidate, and equal own labels under JS strict equality, where
two unset labels count as equal; the own labels are not required to be
defined. -/
theorem C5_amended : ∀ (n ele : WEntry), n.value ≠ 1 →
    (ClusterMatch.pairEligible n ele = true ↔
      ((∃ p, n.parentLabel = some p ∧ ele.parentLabel = some p)
        ∧ ele.value ≠ 1 ∧ n.label = ele.label)) := by
  intro n ele hn
  unfold ClusterMatch.pairEligible
  rw [if_neg hn]
  simp only [Bool.and_eq_true, Option.isSome_iff_exists, beq_iff_eq,
    Bool.not_eq_true', beq_eq_false_iff_ne]
  constructor
  · rintro ⟨⟨⟨⟨⟨p1, hp1⟩, ⟨p2, hp2⟩⟩, hv⟩, hl⟩, hpl⟩
    refine ⟨⟨p1, hp1, ?_⟩, hv, hl⟩
    rw [← hpl]
    exact hp1
  · rintro ⟨⟨p, hp1, hp2⟩, hv, hl⟩
    exact ⟨⟨⟨⟨⟨p, hp1⟩, ⟨p, hp2⟩⟩, hv⟩, hl⟩, by rw [hp1, hp2]⟩

/-- Witness for C5_amended: an internal popped node with a defined label
pairs with a matching internal candidate. -/
theorem C5_witness :
    ClusterMatch.pairEligible
      ⟨2, none, some "_B-C_", "r0", some "_A-B-C_", "r"⟩
      ⟨2, none, some "_B-C_", "s0", some "_A-B-C_", "s"⟩ = true :=
  (C5_amended ⟨2, none, some "_B-C_", "r0", some "_A-B-C_", "r"⟩
      ⟨2, none, some "_B-C_", "s0", some "_A-B-C_", "s"⟩ (by decide)).mpr
    ⟨⟨"_A-B-C_", rfl, rfl⟩, by decide, rfl⟩

/-- C5: the claim that a pairing of an internal popped node requires both
own labels to be defined, and that a comparison involving an undefined
label counts as not equal, is false: two internal nodes whose own labels
are both unset are paired whenever their parent labels are defined and
equal, because JS strict equality holds on two undefined values. -/
theorem C5_counterexample :
    ClusterMatch.pairEligible
      ⟨2, none, none, "r00", some "_P_", "r0"⟩
      ⟨2, none, none, "s00", some "_P_", "s0"⟩ = true ∧
    (⟨2, none, none, "r00", some "_P_", "r0"⟩ : WEntry).value ≠ 1 ∧
    (⟨2, none, none, "r00", some "_P_", "r0"⟩ : WEntry).label = none ∧
    (⟨2, none, none, "s00", some "_P_", "s0"⟩ : WEntry).label = none := by
  refine ⟨by decide, by decide, by decide, by decide⟩

/-! ## The layout geometry -/

/-- Embeds Utils.rotate of utils.ts with the cosine and sine of the angle
passed as exact values (the only call site uses rad = -pi/2, where the
cosine is 0 and the sine is -1). The second component keeps the sign of
the source, p0 * sin - p1 * cos, which is not a rotation for a general
angle but coincides with one at -pi/2. -/
def Utils.rotate (p : ℚ × ℚ) (c s : ℚ) : ℚ × ℚ :=
  (p.1 * c - p.2 * s, p.1 * s - p.2 * c)

/-- Embeds Utils.translate of utils.ts. -/
def Utils.translate (p t : ℚ × ℚ) : ℚ × ℚ :=
  (p.1 + t.1, p.2 + t.2)

/-- The per-node step of updateCoordinates: rotate by -pi/2 about the
origin (cosine 0, sine -1), then translate by the offsets. -/
def rotTransStep (dx dy x y : ℚ) : ℚ × ℚ :=
  Utils.translate (Utils.rotate (x, y) 0 (-1)) (dx, dy)

/-- The rotate-then-translate pass of updateCoordinates over all nodes. -/
def rotTransPhase (dx dy : ℚ) (t : HNode) : HNode :=
  mapNodeXY (fun _ x y => rotTransStep dx dy x y) t

theorem mapNodeXY_congr (f g : NodeData → ℚ → ℚ → ℚ × ℚ) (t : HNode)
    (h : ∀ d x y, f d x y = g d x y) : mapNodeXY f t = mapNodeXY g t := by
  have hfg : f = g := funext fun d => funext fun x => funext fun y => h d x y
  rw [hfg]

/-- C9: the rotate-then-translate step of updateCoordinates maps the
initial layout coordinates of every node to exactly the image of the
-90 degree rotation about the origin followed by the translation by the
offsets, namely (y0 + offsetX, -x0 + offsetY). -/
theorem C9_rotate_translate : ∀ (dx dy : ℚ) (t : HNode),
    rotTransPhase dx dy t = mapNodeXY (fun _ x y => (y + dx, -x + dy)) t := by
  intro dx dy t
  unfold rotTransPhase
  refine mapNodeXY_congr _ _ t ?_
  intro d x y
  unfold rotTransStep Utils.rotate Utils.translate
  refine Prod.ext ?_ ?_ <;> simp

/-! ## Dendrogram.flipYNode -/

/-- The running maximum the flipYNode loop computes, starting from the
negative infinity sentinel; on the nonempty leaf lists it is applied to,
it is the maximum. -/
def listMax : List ℚ → ℚ
  | [] => 0
  | a :: rest => rest.foldl max a

/-- The running minimum of the flipYNode loop, as listMax. -/
def listMin : List ℚ → ℚ
  | [] => 0
  | a :: rest => rest.foldl min a

/-- The descendant pass of flipYNode: every y becomes maxY - (y - minY). -/
def flipYAt (maxY minY : ℚ) (t : HNode) : HNode :=
  mapNodeXY (fun _ x y => (x, maxY - (y - minY))) t

/-- Embeds Dendrogram.flipYNode: a node with value 1 is returned
untouched; otherwise the minimum and maximum y over the leaves of the
node are collected and every descendant y is mirrored about their
midpoint. -/
def Dendrogram.flipYNode (node : HNode) : HNode :=
  if node.value = 1 then node
  else
    flipYAt (listMax (node.leaves.map HNode.y))
      (listMin (node.leaves.map HNode.y)) node

theorem value_mapNodeXY (f : NodeData → ℚ → ℚ → ℚ × ℚ) (t : HNode) :
    (mapNodeXY f t).value = t.value := by
  cases t; rfl

theorem y_mapNodeXY (f : NodeData → ℚ → ℚ → ℚ × ℚ) (t : HNode) :
    (mapNodeXY f t).y = (f t.data t.x t.y).2 := by
  cases t; rfl

theorem mapNodeXY_comp (f g : NodeData → ℚ → ℚ → ℚ × ℚ) :
    ∀ (t : HNode), mapNodeXY f (mapNodeXY g t)
      = mapNodeXY (fun d x y => f d (g d x y).1 (g d x y).2) t := by
  intro t
  induction t using HNode.myInd with
  | mk d v x y cs ih =>
    show HNode.mk d v _ _ (mapNodeXYL f (mapNodeXYL g cs)) = HNode.mk d v _ _ _
    have hl : ∀ (l : List HNode), (∀ a ∈ l, mapNodeXY f (mapNodeXY g a)
          = mapNodeXY (fun d x y => f d (g d x y).1 (g d x y).2) a) →
        mapNodeXYL f (mapNodeXYL g l)
          = mapNodeXYL (fun d x y => f d (g d x y).1 (g d x y).2) l := by
      intro l
      induction l with
      | nil => intro _; rfl
      | cons a as ihl =>
        intro hall
        show mapNodeXY f (mapNodeXY g a) :: mapNodeXYL f (mapNodeXYL g as) = _
        rw [hall a (List.mem_cons_self a as),
          ihl (fun b hb => hall b (List.mem_cons_of_mem a hb))]
        rfl
    rw [hl cs ih]

theorem mapNodeXY_id : ∀ (t : HNode), mapNodeXY (fun _ x y => (x, y)) t = t := by
  intro t
  induction t using HNode.myInd with
  | mk d v x y cs ih =>
    show HNode.mk d v x y (mapNodeXYL (fun _ x y => (x, y)) cs) = HNode.mk d v x y cs
    have hl : ∀ (l : List HNode), (∀ a ∈ l, mapNodeXY (fun _ x y => (x, y)) a = a) →
        mapNodeXYL (fun _ x y => (x, y)) l = l := by
      intro l
      induction l with
      | nil => intro _; rfl
      | cons a as ihl =>
        intro hall
        show mapNodeXY (fun _ x y => (x, y)) a :: _ = a :: as
        rw [hall a (List.mem_cons_self a as),
          ihl (fun b hb => hall b (List.mem_cons_of_mem a hb))]
    rw [hl cs ih]

theorem leaves_mapNodeXY (f : NodeData → ℚ → ℚ → ℚ × ℚ) :
    ∀ (t : HNode), (mapNodeXY f t).leaves = t.leaves.map (mapNodeXY f) := by
  intro t
  induction t using HNode.myInd with
  | mk d v x y cs ih =>
    cases cs with
    | nil => rfl
    | cons c rest =>
      show leavesL (mapNodeXYL f (c :: rest)) = (leavesL (c :: rest)).map (mapNodeXY f)
      have hl : ∀ (l : List HNode), (∀ a ∈ l, (mapNodeXY f a).leaves
            = a.leaves.map (mapNodeXY f)) →
          leavesL (mapNodeXYL f l) = (leavesL l).map (mapNodeXY f) := by
        intro l
        induction l with
        | nil => intro _; rfl
        | cons a as ihl =>
          intro hall
          show (mapNodeXY f a).leaves ++ leavesL (mapNodeXYL f as)
            = (a.leaves ++ leavesL as).map (mapNodeXY f)
          rw [List.map_append, hall a (List.mem_cons_self a as),
            ihl (fun b hb => hall b (List.mem_cons_of_mem a hb))]
      exact hl (c :: rest) ih

theorem leaves_ne_nil : ∀ (t : HNode), t.leaves ≠ [] := by
  intro t
  induction t using HNode.myInd with
  | mk d v x y cs ih =>
    cases cs with
    | nil => simp [HNode.leaves]
    | cons c rest =>
      show leavesL (c :: rest) ≠ []
      show c.leaves ++ leavesL rest ≠ []
      intro hcon
      exact ih c (List.mem_cons_self c rest) (List.append_eq_nil.mp hcon).1

theorem max_sub_eq (c a b : ℚ) : max (c - a) (c - b) = c - min a b := by
  rcases le_total a b with h | h
  · rw [min_eq_left h, max_eq_left (by linarith)]
  · rw [min_eq_right h, max_eq_right (by linarith)]

theorem min_sub_eq (c a b : ℚ) : min (c - a) (c - b) = c - max a b := by
  rcases le_total a b with h | h
  · rw [max_eq_right h, min_eq_right (by linarith)]
  · rw [max_eq_left h, min_eq_left (by linarith)]

theorem foldl_max_sub (c : ℚ) :
    ∀ (l : List ℚ) (a : ℚ),
      (l.map (fun v => c - v)).foldl max (c - a) = c - l.foldl min a := by
  intro l
  induction l with
  | nil => intro a; rfl
  | cons b rest ih =>
    intro a
    show (rest.map (fun v => c - v)).foldl max (max (c - a) (c - b))
      = c - rest.foldl min (min a b)
    rw [max_sub_eq, ih (min a b)]

theorem foldl_min_sub (c : ℚ) :
    ∀ (l : List ℚ) (a : ℚ),
      (l.map (fun v => c - v)).foldl min (c - a) = c - l.foldl max a := by
  intro l
  induction l with
  | nil => intro a; rfl
  | cons b rest ih =>
    intro a
    show (rest.map (fun v => c - v)).foldl min (min (c - a) (c - b))
      = c - rest.foldl max (max a b)
    rw [min_sub_eq, ih (max a b)]

theorem listMax_map_sub (c : ℚ) (a : ℚ) (rest : List ℚ) :
    listMax ((a :: rest).map (fun v => c - v)) = c - listMin (a :: rest) := by
  show ((rest.map (fun v => c - v)).foldl max (c - a)) = c - rest.foldl min a
  exact foldl_max_sub c rest a

theorem listMin_map_sub (c : ℚ) (a : ℚ) (rest : List ℚ) :
    listMin ((a :: rest).map (fun v => c - v)) = c - listMax (a :: rest) := by
  show ((rest.map (fun v => c - v)).foldl min (c - a)) = c - rest.foldl max a
  exact foldl_min_sub c rest a

theorem flipYAt_leaves_y (maxY minY : ℚ) (t : HNode) :
    (flipYAt maxY minY t).leaves.map HNode.y
      = (t.leaves.map HNode.y).map (fun v => (maxY + minY) - v) := by
  unfold flipYAt
  rw [leaves_mapNodeXY, List.map_map, List.map_map]
  refine List.map_congr_left ?_
  intro l _
  show (mapNodeXY _ l).y = (maxY + minY) - l.y
  rw [y_mapNodeXY]
  ring

/-- C10: flipYNode applied twice to any node restores every coordinate; on
a node with value 1 one application is already the identity, and on any
other node the mirror about the midpoint of the least and greatest leaf y
is an involution, because the mirrored leaves have the same least and
greatest y. -/
theorem C10_flipY_involutive : ∀ (n : HNode),
    Dendrogram.flipYNode (Dendrogram.flipYNode n) = n := by
  intro n
  by_cases hv : n.value = 1
  · simp only [Dendrogram.flipYNode, if_pos hv]
  · rw [show Dendrogram.flipYNode n
        = flipYAt (listMax (n.leaves.map HNode.y))
            (listMin (n.leaves.map HNode.y)) n from by
      unfold Dendrogram.flipYNode; rw [if_neg hv]]
    set M := listMax (n.leaves.map HNode.y) with hM
    set m := listMin (n.leaves.map HNode.y) with hm
    have hv2 : (flipYAt M m n).value ≠ 1 := by
      unfold flipYAt
      rw [value_mapNodeXY]
      exact hv
    rw [show Dendrogram.flipYNode (flipYAt M m n)
        = flipYAt (listMax ((flipYAt M m n).leaves.map HNode.y))
            (listMin ((flipYAt M m n).leaves.map HNode.y)) (flipYAt M m n) from by
      unfold Dendrogram.flipYNode; rw [if_neg hv2]]
    have hys : (flipYAt M m n).leaves.map HNode.y
        = (n.leaves.map HNode.y).map (fun v => (M + m) - v) := by
      have := flipYAt_leaves_y M m n
      rw [this]
    cases hleaves : n.leaves.map HNode.y with
    | nil =>
      exact absurd (List.map_eq_nil_iff.mp hleaves) (leaves_ne_nil n)
    | cons a rest =>
      have hM2 : listMax ((flipYAt M m n).leaves.map HNode.y) = M := by
        rw [hys, hleaves, listMax_map_sub, ← hleaves, ← hm, hM]
        ring
      have hm2 : listMin ((flipYAt M m n).leaves.map HNode.y) = m := by
        rw [hys, hleaves, listMin_map_sub, ← hleaves, ← hM, hm]
        ring
      rw [hM2, hm2]
      unfold flipYAt
      rw [mapNodeXY_comp]
      rw [mapNodeXY_congr _ (fun _ x y => (x, y)) n (by
        intro d x y
        refine Prod.ext ?_ ?_
        · simp
        · simp
          ring)]
      exact mapNodeXY_id n

/-! ## Dendrogram.updateCoordinates -/

mutual

/-- The tree with the display coordinates zeroed: two trees with the same
shape are indistinguishable to every coordinate-writing pass. -/
def shape : HNode → HNode
  | .mk d v _ _ cs => .mk d v 0 0 (shapeL cs)

def shapeL : List HNode → List HNode
  | [] => []
  | c :: cs => shape c :: shapeL cs

end

mutual

/-- The number of leaves of the subtree, by structure. -/
def leafCnt : HNode → Nat
  | .mk _ _ _ _ [] => 1
  | .mk _ _ _ _ (c :: cs) => leafCntL (c :: cs)

def leafCntL : List HNode → Nat
  | [] => 0
  | c :: cs => leafCnt c + leafCntL cs

end

mutual

/-- The height of the subtree: 0 for a childless node. -/
def maxDepth : HNode → Nat
  | .mk _ _ _ _ cs => maxDepthL cs

def maxDepthL : List HNode → Nat
  | [] => 0
  | c :: cs => max (1 + maxDepth c) (maxDepthL cs)

end

mutual

/-- Modelled from the spec: the perpendicular-axis pass of the d3 cluster
layout (an external library call). Each leaf receives an evenly spaced
position along the axis in traversal order (index times step) and each
internal node the mean of the positions of its children; the pass reads no
incoming coordinate. Returns the re-positioned tree and the next leaf
index. -/
def assignPerp (step : ℚ) : Nat → HNode → (HNode × Nat)
  | i, .mk d v _ y [] => (.mk d v (step * (i : ℚ)) y [], i + 1)
  | i, .mk d v _ y (c :: cs) =>
    let r := assignPerpL step i (c :: cs)
    let xs := r.1.map HNode.x
    (.mk d v (xs.sum / (xs.length : ℚ)) y r.1, r.2)

def assignPerpL (step : ℚ) : Nat → List HNode → (List HNode × Nat)
  | i, [] => ([], i)
  | i, c :: cs =>
    let rc := assignPerp step i c
    let rcs := assignPerpL step rc.2 cs
    (rc.1 :: rcs.1, rcs.2)

end

mutual

/-- Modelled from the spec: the depth-axis pass of the d3 cluster layout,
each node positioned proportionally to its depth, scaled to fit the span
(factor = span / height of the tree). -/
def assignDepth (f : ℚ) : Nat → HNode → HNode
  | depth, .mk d v x _ cs => .mk d v x (f * (depth : ℚ)) (assignDepthL f (depth + 1) cs)

def assignDepthL (f : ℚ) : Nat → List HNode → List HNode
  | _, [] => []
  | depth, c :: cs => assignDepth f depth c :: assignDepthL f depth cs

end

/-- Modelled from the spec: d3.cluster().size([height, width]) applied to
the root, as updateCoordinates invokes it (axes swapped: the perpendicular
axis is x over the height span, the depth axis is y over the width span).
The layout overwrites every coordinate and reads none, which the
definition makes syntactic by running the passes on the shape of the
input. -/
def clusterLayout (height width : ℚ) (t : HNode) : HNode :=
  let s := shape t
  let n := leafCnt s
  let step := if n ≤ 1 then 0 else height / ((n : ℚ) - 1)
  let md := maxDepth s
  let f := if md = 0 then 0 else width / (md : ℚ)
  assignDepth f 0 (assignPerp step 0 s).1

/-- The x coordinate of the first leaf in traversal order, which the
source reads as this._root.leaves()[0].x. -/
def leavesHeadX (t : HNode) : ℚ :=
  match t.leaves with
  | [] => 0
  | l :: _ => l.x

/-- Embeds Dendrogram._scaleXCoordinates: with world the root distance,
pixels the x span between root and first leaf, and rootx the root x, every
node is re-positioned at ((world - distance) / world) * pixels + rootx. -/
def Dendrogram.scaleXCoordinates (t : HNode) : HNode :=
  mapNodeXY (fun dd _ y =>
    (((t.data.distance - dd.distance) / t.data.distance)
        * (leavesHeadX t - t.x) + t.x, y)) t

/-- Embeds Dendrogram._flipXCoordinates: every node x becomes
labelWidth + xroot + (xleaf - x). -/
def Dendrogram.flipXCoordinates (labelWidth : ℚ) (t : HNode) : HNode :=
  mapNodeXY (fun _ x y => (labelWidth + t.x + (leavesHeadX t - x), y)) t

/-- The root-coordinate pipeline of Dendrogram.updateCoordinates: cluster
layout, rotate and translate, distance-proportional x rescale, and the x
mirror when the flag is set. -/
def layoutRoot (flipped : Bool) (dx dy width height labelWidth : ℚ)
    (r : HNode) : HNode :=
  let r0 := clusterLayout height width r
  let r1 := rotTransPhase dx dy r0
  let r2 := Dendrogram.scaleXCoordinates r1
  if flipped then Dendrogram.flipXCoordinates labelWidth r2 else r2

/-- Embeds Dendrogram.updateCoordinates. -/
def Dendrogram.updateCoordinates (dx dy width height labelWidth : ℚ)
    (den : Dendrogram) : Dendrogram :=
  { den with root := layoutRoot den.flipped dx dy width height labelWidth den.root }

theorem shape_mapNodeXY (f : NodeData → ℚ → ℚ → ℚ × ℚ) :
    ∀ (t : HNode), shape (mapNodeXY f t) = shape t := by
  intro t
  induction t using HNode.myInd with
  | mk d v x y cs ih =>
    show HNode.mk d v 0 0 (shapeL (mapNodeXYL f cs)) = HNode.mk d v 0 0 (shapeL cs)
    have hl : ∀ (l : List HNode), (∀ a ∈ l, shape (mapNodeXY f a) = shape a) →
        shapeL (mapNodeXYL f l) = shapeL l := by
      intro l
      induction l with
      | nil => intro _; rfl
      | cons a as ihl =>
        intro hall
        show shape (mapNodeXY f a) :: shapeL (mapNodeXYL f as) = shape a :: shapeL as
        rw [hall a (List.mem_cons_self a as),
          ihl (fun b hb => hall b (List.mem_cons_of_mem a hb))]
    rw [hl cs ih]

theorem shape_shape : ∀ (t : HNode), shape (shape t) = shape t := by
  intro t
  induction t using HNode.myInd with
  | mk d v x y cs ih =>
    show HNode.mk d v 0 0 (shapeL (shapeL cs)) = HNode.mk d v 0 0 (shapeL cs)
    have hl : ∀ (l : List HNode), (∀ a ∈ l, shape (shape a) = shape a) →
        shapeL (shapeL l) = shapeL l := by
      intro l
      induction l with
      | nil => intro _; rfl
      | cons a as ihl =>
        intro hall
        show shape (shape a) :: shapeL (shapeL as) = shape a :: shapeL as
        rw [hall a (List.mem_cons_self a as),
          ihl (fun b hb => hall b (List.mem_cons_of_mem a hb))]
    rw [hl cs ih]

theorem shape_assignPerp (step : ℚ) :
    ∀ (t : HNode) (i : Nat), shape (assignPerp step i t).1 = shape t := by
  intro t
  induction t using HNode.myInd with
  | mk d v x y cs ih =>
    intro i
    cases cs with
    | nil => rfl
    | cons c rest =>
      show HNode.mk d v 0 0 (shapeL (assignPerpL step i (c :: rest)).1)
        = HNode.mk d v 0 0 (shapeL (c :: rest))
      have hl : ∀ (l : List HNode), (∀ a ∈ l, ∀ j,
            shape (assignPerp step j a).1 = shape a) → ∀ j,
          shapeL (assignPerpL step j l).1 = shapeL l := by
        intro l
        induction l with
        | nil => intro _ j; rfl
        | cons a as ihl =>
          intro hall j
          show shape (assignPerp step j a).1
              :: shapeL (assignPerpL step (assignPerp step j a).2 as).1
            = shape a :: shapeL as
          rw [hall a (List.mem_cons_self a as) j,
            ihl (fun b hb => hall b (List.mem_cons_of_mem a hb)) _]
      rw [hl (c :: rest) (fun a ha j => ih a ha j) i]

theorem shape_assignDepth (f : ℚ) :
    ∀ (t : HNode) (depth : Nat), shape (assignDepth f depth t) = shape t := by
  intro t
  induction t using HNode.myInd with
  | mk d v x y cs ih =>
    intro depth
    show HNode.mk d v 0 0 (shapeL (assignDepthL f (depth + 1) cs))
      = HNode.mk d v 0 0 (shapeL cs)
    have hl : ∀ (l : List HNode), (∀ a ∈ l, ∀ j,
          shape (assignDepth f j a) = shape a) → ∀ j,
        shapeL (assignDepthL f j l) = shapeL l := by
      intro l
      induction l with
      | nil => intro _ j; rfl
      | cons a as ihl =>
        intro hall j
        show shape (assignDepth f j a) :: shapeL (assignDepthL f j as)
          = shape a :: shapeL as
        rw [hall a (List.mem_cons_self a as) j,
          ihl (fun b hb => hall b (List.mem_cons_of_mem a hb)) j]
    rw [hl cs (fun a ha j => ih a ha j) (depth + 1)]

theorem shape_clusterLayout (height width : ℚ) (t : HNode) :
    shape (clusterLayout height width t) = shape t := by
  unfold clusterLayout
  rw [shape_assignDepth, shape_assignPerp, shape_shape]

theorem clusterLayout_congr (height width : ℚ) (r r2 : HNode)
    (h : shape r = shape r2) :
    clusterLayout height width r = clusterLayout height width r2 := by
  unfold clusterLayout
  rw [h]

theorem shape_layoutRoot (flipped : Bool) (dx dy width height labelWidth : ℚ)
    (r : HNode) :
    shape (layoutRoot flipped dx dy width height labelWidth r) = shape r := by
  unfold layoutRoot rotTransPhase Dendrogram.scaleXCoordinates
    Dendrogram.flipXCoordinates
  cases flipped with
  | true =>
    rw [if_pos rfl]
    rw [shape_mapNodeXY, shape_mapNodeXY, shape_mapNodeXY, shape_clusterLayout]
  | false =>
    rw [if_neg Bool.false_ne_true]
    rw [shape_mapNodeXY, shape_mapNodeXY, shape_clusterLayout]

theorem layoutRoot_congr (flipped : Bool) (dx dy width height labelWidth : ℚ)
    (r r2 : HNode) (h : shape r = shape r2) :
    layoutRoot flipped dx dy width height labelWidth r
      = layoutRoot flipped dx dy width height labelWidth r2 := by
  unfold layoutRoot
  rw [clusterLayout_congr height width r r2 h]

/-- C8: on a tree whose coordinates were computed by updateCoordinates,
toggling the flip flag and recomputing the layout, twice in a row with the
same parameters, restores every coordinate (the whole Dendrogram, so in
particular every node x) to its value after the first layout. The layout
reads only the shape of the tree and the flag, and two toggles restore the
flag. -/
theorem C8_flip_layout_roundtrip : ∀ (den : Dendrogram) (dx dy width height labelWidth : ℚ),
    Dendrogram.updateCoordinates dx dy width height labelWidth
      (Dendrogram.toggleFlipped (Dendrogram.updateCoordinates dx dy width height labelWidth
        (Dendrogram.toggleFlipped (Dendrogram.updateCoordinates dx dy width height labelWidth den))))
    = Dendrogram.updateCoordinates dx dy width height labelWidth den := by
  intro den dx dy width height labelWidth
  cases den with
  | mk r co f =>
    show Dendrogram.mk
        (layoutRoot (!!f) dx dy width height labelWidth
          (layoutRoot (!f) dx dy width height labelWidth
            (layoutRoot f dx dy width height labelWidth r))) co (!!f)
      = Dendrogram.mk (layoutRoot f dx dy width height labelWidth r) co f
    rw [Bool.not_not]
    have hsh : shape (layoutRoot (!f) dx dy width height labelWidth
        (layoutRoot f dx dy width height labelWidth r)) = shape r := by
      rw [shape_layoutRoot, shape_layoutRoot]
    rw [layoutRoot_congr f dx dy width height labelWidth _ r hsh]

end Cline
